import Mathlib

/-!
Verification of the `transform-csv` tool (`src/transform-csv.py`).

The development shallowly embeds the program's data model and operations:

* table cells are `Option String` (`none` is the missing/NaN marker; the
  program reads all values as text with `dtype=str`);
* a pandas `DataFrame` under construction is a `Frame`: pandas adopts the
  index of the first column assigned to an empty frame, and every later
  column assignment is aligned (reindexed) to the frame's row index, with
  missing positions filled by the null marker; assigning to an existing
  column name overwrites it in place;
* Python's `s[:k]` slice (with possibly negative `k`) is `pySliceTo`;
* the JSON cache file is `CacheFile`: `none` models a missing file,
  `some none` a present file whose contents `json.loads` rejects (the
  exception is an `Except.error`), and `some (some m)` a file parsing to
  the dictionary `m`, modelled as an association list in iteration order
  (Python dictionaries preserve order and have unique keys);
* file paths are modelled as already-canonical absolute path strings, so
  `pathlib.Path.resolve` is the identity on them;
* the interactive curses session is a step function on a state holding the
  cursor and the three field sets (Python `set` becomes `Finset String`).
-/

/-- A table cell: `none` is the missing/NaN marker, values are text. -/
abbrev Cell := Option String

/-- The source table (`df`): its row count and its columns, addressed by
field name as `df[f]` is.  In the program every column of `df` has length
`len(df)`; theorems state this as an explicit hypothesis. -/
structure Table where
  nrows : Nat
  col : String → List Cell

/-- The `FieldsSetting` dataclass: the full ordered field list and the two
classification lists. -/
structure FieldsSetting where
  all_fields : List String
  fields_to_window : List String
  fields_to_drop : List String
deriving DecidableEq, Repr

/-! ## The lag-expansion transform (`transform`, lines 197-217) -/

/-- Python's `xs[:k]` for an `Int` bound `k`: nonnegative `k` keeps the
first `k` elements (clamped to the length), negative `k` drops the last
`-k` elements. -/
def pySliceTo {α : Type} (xs : List α) (k : Int) : List α :=
  if 0 ≤ k then xs.take k.toNat else xs.take (xs.length - (-k).toNat)

/-- The generated column name `f"{f}_T-{i}"`. -/
def lagName (f : String) (i : Nat) : String :=
  f ++ "_T-" ++ toString i

/-- The raw series assigned for lag `i` of a windowed column `src`, where
`len` is `len(df)`: `pd.Series([None] * i).append(df[f][: len(df) - i],
ignore_index=True)`. -/
def lagSeries (src : List Cell) (len i : Nat) : List Cell :=
  List.replicate i none ++ pySliceTo src ((len : Int) - (i : Int))

/-- The (name, raw series) assignments the loop body performs for one field
`f` of `all_fields`: the windowed test precedes the dropped test, a dropped
field assigns nothing, and any other field assigns `df[f]` under its own
name. -/
def fieldColumns (tbl : Table) (fs : FieldsSetting) (n : Nat) (f : String) :
    List (String × List Cell) :=
  if f ∈ fs.fields_to_window then
    (List.range n).map (fun i => (lagName f i, lagSeries (tbl.col f) tbl.nrows i))
  else if f ∈ fs.fields_to_drop then []
  else [(f, tbl.col f)]

/-- All column assignments performed by `transform`, in loop order. -/
def transformAssignments (tbl : Table) (fs : FieldsSetting) (n : Nat) :
    List (String × List Cell) :=
  fs.all_fields.flatMap (fieldColumns tbl fs n)

/-- Insertion into a Python dictionary rendered as an association list in
iteration order: an existing key is overwritten in place, a new key is
appended.  (A real dictionary never holds a duplicate key; on such lists
the `map` overwrites the unique occurrence.) -/
def dictInsert {α : Type} (m : List (String × α)) (k : String) (v : α) :
    List (String × α) :=
  if m.any (fun kv => kv.1 == k) then
    m.map (fun kv => if kv.1 == k then (k, v) else kv)
  else m ++ [(k, v)]

/-- Reindexing a series to a row index of length `n`: positions beyond the
series are filled with the null marker. -/
def reindexTo (n : Nat) (v : List Cell) : List Cell :=
  v.take n ++ List.replicate (n - v.length) none

/-- A pandas `DataFrame` being built by column assignment.  `hasIndex`
records whether a first column assignment has fixed the row index (the
frame starts as `pd.DataFrame(dtype=str)`, empty). -/
structure Frame where
  hasIndex : Bool
  nrows : Nat
  cols : List (String × List Cell)

/-- The empty frame `pd.DataFrame(dtype=str)`. -/
def Frame.empty : Frame := ⟨false, 0, []⟩

/-- Column assignment `df_new[name] = v`: an empty frame adopts the
series' index; otherwise the series is aligned to the frame's index and
upserted. -/
def Frame.setCol (fr : Frame) (name : String) (v : List Cell) : Frame :=
  if fr.hasIndex then
    ⟨true, fr.nrows, dictInsert fr.cols name (reindexTo fr.nrows v)⟩
  else ⟨true, v.length, [(name, v)]⟩

/-- The function `transform(df, fields_setting, n_lags)`: perform all assignments on an
empty frame and read off the resulting columns in order. -/
def transform (tbl : Table) (fs : FieldsSetting) (n : Nat) :
    List (String × List Cell) :=
  ((transformAssignments tbl fs n).foldl (fun fr a => fr.setCol a.1 a.2) Frame.empty).cols

/-- The lag-column names `f_T-0 … f_T-(n-1)` of a windowed field. -/
def lagNames (f : String) (n : Nat) : List String :=
  (List.range n).map (lagName f)

/-- The names a field `f` is assigned to, keeping a dropped field's own
name in place of its (empty) contribution. -/
def pbBlock (fs : FieldsSetting) (n : Nat) (f : String) : List String :=
  if f ∈ fs.fields_to_window then lagNames f n else [f]

/-- All field names and generated lag names, in loop order.  `plannedNames`
being duplicate-free is the well-formedness hypothesis that no field name
or generated lag name collides with another. -/
def plannedNames (fs : FieldsSetting) (n : Nat) : List String :=
  fs.all_fields.flatMap (pbBlock fs n)

/-- The names a field `f` actually contributes to the output. -/
def obBlock (fs : FieldsSetting) (n : Nat) (f : String) : List String :=
  if f ∈ fs.fields_to_window then lagNames f n
  else if f ∈ fs.fields_to_drop then []
  else [f]

/-- The output column names: original field order with each windowed field
replaced in place by its lag names in increasing lag order, each dropped
field contributing nothing, and each kept field contributing itself. -/
def outputNames (fs : FieldsSetting) (n : Nat) : List String :=
  fs.all_fields.flatMap (obBlock fs n)

/-! ## The interactive classification session
(`configure_fields_settings_interactively`, lines 73-177) -/

/-- Key-transition events of the session loop. -/
inductive SEvent where
  | up
  | down
  | markWindow
  | markDrop
  | markKeep
deriving DecidableEq, Repr

/-- The session's mutable state: the cursor and the three field sets. -/
structure SessionState where
  cursor : Nat
  toWindow : Finset String
  toDrop : Finset String
  toKeep : Finset String
deriving DecidableEq

/-- Initial session state: cursor `0`; `fields_to_window` and
`fields_to_drop` as sets, and `fields_to_keep = set(all_fields) -
fields_to_window - fields_to_drop`. -/
def initSession (fs : FieldsSetting) : SessionState :=
  ⟨0, fs.fields_to_window.toFinset, fs.fields_to_drop.toFinset,
    (fs.all_fields.toFinset \ fs.fields_to_window.toFinset) \ fs.fields_to_drop.toFinset⟩

/-- The helper `go_down`: advance the cursor unless it is at the last index. -/
def goDown (len cursor : Nat) : Nat :=
  if cursor < len - 1 then cursor + 1 else cursor

/-- The helper `go_up`: retreat the cursor unless it is at index `0`. -/
def goUp (cursor : Nat) : Nat :=
  if cursor > 0 then cursor - 1 else cursor

/-- One key transition.  The marked field is `all_fields[cursor]` (the
`getD` default is unreachable while the cursor is in range, which the
session maintains). -/
def sessionStep (allFields : List String) (s : SessionState) (e : SEvent) :
    SessionState :=
  match e with
  | .down => { s with cursor := goDown allFields.length s.cursor }
  | .up => { s with cursor := goUp s.cursor }
  | .markKeep =>
      let f := allFields.getD s.cursor ""
      ⟨goDown allFields.length s.cursor,
        s.toWindow.erase f, s.toDrop.erase f, insert f s.toKeep⟩
  | .markDrop =>
      let f := allFields.getD s.cursor ""
      ⟨goDown allFields.length s.cursor,
        s.toWindow.erase f, insert f s.toDrop, s.toKeep.erase f⟩
  | .markWindow =>
      let f := allFields.getD s.cursor ""
      ⟨goDown allFields.length s.cursor,
        insert f s.toWindow, s.toDrop.erase f, s.toKeep.erase f⟩

/-- Run a sequence of key transitions. -/
def runSession (allFields : List String) (s : SessionState) (es : List SEvent) :
    SessionState :=
  es.foldl (sessionStep allFields) s

/-- The classification invariant: windowed and dropped are disjoint subsets
of `all_fields`, and together with the kept set they cover `all_fields`
with every field in exactly one of the three states. -/
def SessionInv (allFields : List String) (s : SessionState) : Prop :=
  s.toWindow ∩ s.toDrop = ∅ ∧
  s.toWindow ⊆ allFields.toFinset ∧
  s.toDrop ⊆ allFields.toFinset ∧
  s.toWindow ∪ s.toDrop ∪ s.toKeep = allFields.toFinset ∧
  s.toWindow ∩ s.toKeep = ∅ ∧
  s.toDrop ∩ s.toKeep = ∅

/-! ## The settings cache (`load_all_cache`, `save_all_cache`,
`save_fields_setting`, `load_fields_setting`, lines 22-70) -/

/-- A parsed cache: resolved path string → stored classification, as an
association list in dictionary iteration order.  `to_plain`/`from_plain`
translate a `FieldsSetting` to and from its JSON object field by field, so
the model stores the `FieldsSetting` itself. -/
abbrev CacheMap := List (String × FieldsSetting)

/-- The state of the on-disk cache store: missing file, present file that
`json.loads` rejects, or present file parsing to a cache dictionary. -/
abbrev CacheFile := Option (Option CacheMap)

/-- The function `load_all_cache`: a missing file is an empty cache; otherwise the file
is parsed, and a file `json.loads` rejects raises `JSONDecodeError`. -/
def load_all_cache : CacheFile → Except String CacheMap
  | none => .ok []
  | some none => .error "json.decoder.JSONDecodeError"
  | some (some m) => .ok m

/-- Code-point comparison of strings as character lists (the order
`json.dumps(sort_keys=True)` sorts keys by). -/
def charListLe : List Char → List Char → Bool
  | [], _ => true
  | _ :: _, [] => false
  | a :: as, b :: bs =>
    if a < b then true else if b < a then false else charListLe as bs

/-- Key sorting: `save_all_cache` writes the cache with `sort_keys=True`, so the file a
later `load_all_cache` reads holds the entries in sorted key order. -/
def sortCache (m : CacheMap) : CacheMap :=
  m.insertionSort (fun a b => charListLe a.1.data b.1.data = true)

/-- The function `save_all_cache(all_cache)`: the store now holds the dictionary, keys
sorted. -/
def save_all_cache (m : CacheMap) : CacheFile :=
  some (some (sortCache m))

/-- Paths are modelled as already-canonical absolute strings, so
`pathlib.Path.resolve` is the identity on them. -/
def resolvePath (p : String) : String := p

/-- The basename `pathlib.Path(p).name`: the component after the last `/`. -/
def pathName (p : String) : String :=
  String.mk (p.data.foldl (fun acc c => if c = '/' then [] else acc ++ [c]) [])

/-- Python's `k.endswith(suffix)`. -/
def pyEndswith (k suffix : String) : Bool :=
  suffix.data.isSuffixOf k.data

/-- Dictionary lookup `m[k]` (as an `Option`); also decides `k in m`. -/
def dictGet? {α : Type} (m : List (String × α)) (k : String) : Option α :=
  (m.find? (fun kv => kv.1 == k)).map (fun kv => kv.2)

/-- The function `save_fields_setting(input_file_path, fields_setting)`: load the whole
cache (propagating a parse failure), upsert under the resolved path, and
rewrite the store. -/
def save_fields_setting (file : CacheFile) (path : String) (fs : FieldsSetting) :
    Except String CacheFile :=
  (load_all_cache file).map (fun m =>
    save_all_cache (dictInsert m (resolvePath path) fs))

/-- The fallback scan `for k in all_cache: if k.endswith(filename): return
from_plain(all_cache[k])`: first key (in iteration order) whose whole
string ends with the base name wins; its value is that entry's value since
dictionary keys are unique. -/
def suffixLookup : CacheMap → String → Option FieldsSetting
  | [], _ => none
  | (k, v) :: rest, fn =>
    if pyEndswith k fn then some v else suffixLookup rest fn

/-- The function `load_fields_setting(input_file_path)`: exact lookup under the
resolved path, then the suffix-match fallback on the file's base name,
else absent (`None`). -/
def load_fields_setting (file : CacheFile) (path : String) :
    Except String (Option FieldsSetting) :=
  (load_all_cache file).map (fun m =>
    let key := resolvePath path
    match dictGet? m key with
    | some v => some v
    | none => suffixLookup m (pathName (resolvePath path)))

/-! ## Theorems -/

/-! ### Basic facts about reindexing and the assignment fold -/

theorem reindexTo_length (n : Nat) (v : List Cell) : (reindexTo n v).length = n := by
  simp only [reindexTo, List.length_append, List.length_take, List.length_replicate]
  omega

theorem reindexTo_eq_self {n : Nat} {v : List Cell} (h : v.length = n) :
    reindexTo n v = v := by
  simp [reindexTo, h, List.take_of_length_le (le_of_eq h)]

theorem dictInsert_of_not_mem {α : Type} {m : List (String × α)} {k : String}
    (h : k ∉ m.map Prod.fst) (v : α) : dictInsert m k v = m ++ [(k, v)] := by
  have hany : m.any (fun kv => kv.1 == k) = false := by
    rw [List.any_eq_false]
    intro kv hkv
    simp only [beq_iff_eq]
    intro he
    exact h (he ▸ List.mem_map_of_mem Prod.fst hkv)
  simp [dictInsert, hany]

/-- Folding column assignments whose names are fresh and duplicate-free
onto a frame whose index is already set simply appends the aligned
columns. -/
theorem foldl_setCol_started (as : List (String × List Cell)) :
    ∀ fr : Frame, fr.hasIndex = true → (as.map Prod.fst).Nodup →
    (∀ a ∈ as, a.1 ∉ fr.cols.map Prod.fst) →
    as.foldl (fun fr a => fr.setCol a.1 a.2) fr =
      ⟨true, fr.nrows, fr.cols ++ as.map (fun a => (a.1, reindexTo fr.nrows a.2))⟩ := by
  induction as with
  | nil =>
    intro fr hidx _ _
    simp only [List.foldl_nil, List.map_nil, List.append_nil]
    cases fr with
    | mk hi nr c => simp at hidx; simp [hidx]
  | cons a as ih =>
    intro fr hidx hnd hfresh
    simp only [List.map_cons, List.nodup_cons] at hnd
    have hstep : fr.setCol a.1 a.2 =
        ⟨true, fr.nrows, fr.cols ++ [(a.1, reindexTo fr.nrows a.2)]⟩ := by
      simp [Frame.setCol, hidx,
        dictInsert_of_not_mem (hfresh a (List.mem_cons_self a as))]
    rw [List.foldl_cons, hstep,
      ih ⟨true, fr.nrows, fr.cols ++ [(a.1, reindexTo fr.nrows a.2)]⟩ rfl hnd.2 ?_]
    · simp
    · intro b hb
      simp only [List.map_append, List.mem_append, List.map_cons, List.map_nil]
      rintro (hbl | hbr)
      · exact hfresh b (List.mem_cons_of_mem a hb) hbl
      · simp only [List.mem_singleton] at hbr
        exact hnd.1 (hbr ▸ List.mem_map_of_mem Prod.fst hb)

theorem map_fst_fieldColumns (tbl : Table) (fs : FieldsSetting) (n : Nat) (f : String) :
    (fieldColumns tbl fs n f).map Prod.fst = obBlock fs n f := by
  by_cases hw : f ∈ fs.fields_to_window
  · simp [fieldColumns, obBlock, hw, lagNames, List.map_map, Function.comp]
  · by_cases hd : f ∈ fs.fields_to_drop
    · simp [fieldColumns, obBlock, hw, hd]
    · simp [fieldColumns, obBlock, hw, hd]

theorem map_fst_flatMap_assign (tbl : Table) (fs : FieldsSetting) (n : Nat)
    (l : List String) :
    (l.flatMap (fieldColumns tbl fs n)).map Prod.fst = l.flatMap (obBlock fs n) := by
  induction l with
  | nil => simp
  | cons f l ih => simp [List.flatMap_cons, ih, map_fst_fieldColumns]

theorem map_fst_transformAssignments (tbl : Table) (fs : FieldsSetting) (n : Nat) :
    (transformAssignments tbl fs n).map Prod.fst = outputNames fs n :=
  map_fst_flatMap_assign tbl fs n fs.all_fields

/-- The length of the raw lag-`i` series (`i` nulls followed by the
Python-sliced source column). -/
theorem lagSeries_length {src : List Cell} {N : Nat} (hsrc : src.length = N) (i : Nat) :
    (lagSeries src N i).length = if i ≤ N then N else i + (N - (i - N)) := by
  by_cases hi : i ≤ N
  · rw [if_pos hi]
    have h0 : (0 : Int) ≤ (N : Int) - (i : Int) := by omega
    have ht : ((N : Int) - (i : Int)).toNat = N - i := by omega
    simp only [lagSeries, pySliceTo, if_pos h0, ht, List.length_append,
      List.length_replicate, List.length_take, hsrc]
    omega
  · rw [if_neg hi]
    have h0 : ¬ (0 : Int) ≤ (N : Int) - (i : Int) := by omega
    have ht : (-((N : Int) - (i : Int))).toNat = i - N := by omega
    simp only [lagSeries, pySliceTo, if_neg h0, ht, List.length_append,
      List.length_replicate, List.length_take, hsrc]
    omega

/-- Every raw series the loop assigns is at least as long as the table,
and the first one assigned is exactly as long (so the frame's adopted
index has length `tbl.nrows`). -/
theorem head_assignment_length (tbl : Table) (fs : FieldsSetting) (n : Nat) :
    ∀ l : List String, (∀ f ∈ l, (tbl.col f).length = tbl.nrows) →
    ∀ a rest, l.flatMap (fieldColumns tbl fs n) = a :: rest →
    a.2.length = tbl.nrows := by
  intro l
  induction l with
  | nil => intro _ a rest h; simp at h
  | cons f l ih =>
    intro hlen a rest h
    rw [List.flatMap_cons] at h
    by_cases hw : f ∈ fs.fields_to_window
    · rcases n with _ | m
      · simp only [fieldColumns, if_pos hw, List.range_zero, List.map_nil,
          List.nil_append] at h
        exact ih (fun g hg => hlen g (List.mem_cons_of_mem f hg)) a rest h
      · simp only [fieldColumns, if_pos hw, List.range_succ_eq_map, List.map_cons,
          List.cons_append, List.cons.injEq] at h
        have ha : a = (lagName f 0, lagSeries (tbl.col f) tbl.nrows 0) := h.1.symm
        have hfl : (tbl.col f).length = tbl.nrows := hlen f (List.mem_cons_self f l)
        rw [ha]
        simp only [lagSeries_length hfl 0, Nat.zero_le, if_pos]
    · by_cases hd : f ∈ fs.fields_to_drop
      · simp only [fieldColumns, if_neg hw, if_pos hd, List.nil_append] at h
        exact ih (fun g hg => hlen g (List.mem_cons_of_mem f hg)) a rest h
      · simp only [fieldColumns, if_neg hw, if_neg hd, List.cons_append,
          List.cons.injEq] at h
        rw [← h.1]
        exact hlen f (List.mem_cons_self f l)

/-- Under the program's well-formedness conditions (every column of the
table has the table's length; no column-name collisions), building the
frame by pandas column assignment produces exactly the planned
assignments, each aligned to the table's row count. -/
theorem transform_eq_map (tbl : Table) (fs : FieldsSetting) (n : Nat)
    (hlen : ∀ f ∈ fs.all_fields, (tbl.col f).length = tbl.nrows)
    (hnd : (outputNames fs n).Nodup) :
    transform tbl fs n =
      (transformAssignments tbl fs n).map (fun a => (a.1, reindexTo tbl.nrows a.2)) := by
  rcases h : transformAssignments tbl fs n with _ | ⟨a, rest⟩
  · simp [transform, h, Frame.empty]
  · have hha : a.2.length = tbl.nrows :=
      head_assignment_length tbl fs n fs.all_fields hlen a rest h
    have hnd' : ((a :: rest).map Prod.fst).Nodup := by
      rw [← h, map_fst_transformAssignments]; exact hnd
    simp only [List.map_cons, List.nodup_cons] at hnd'
    have hstep : Frame.empty.setCol a.1 a.2 = ⟨true, a.2.length, [(a.1, a.2)]⟩ := by
      simp [Frame.setCol, Frame.empty]
    rw [transform, h, List.foldl_cons, hstep,
      foldl_setCol_started rest ⟨true, a.2.length, [(a.1, a.2)]⟩ rfl hnd'.2 ?_]
    · simp [hha, reindexTo_eq_self hha]
    · intro b hb
      simp only [List.map_cons, List.map_nil, List.mem_singleton]
      intro hba
      exact hnd'.1 (hba ▸ List.mem_map_of_mem Prod.fst hb)

/-! ### Name-side bookkeeping -/

theorem obBlock_subset_pbBlock (fs : FieldsSetting) (n : Nat) (g : String) :
    ∀ x ∈ obBlock fs n g, x ∈ pbBlock fs n g := by
  intro x hx
  by_cases hw : g ∈ fs.fields_to_window
  · rw [obBlock, if_pos hw] at hx; rw [pbBlock, if_pos hw]; exact hx
  · by_cases hd : g ∈ fs.fields_to_drop
    · rw [obBlock, if_neg hw, if_pos hd] at hx; simp at hx
    · rw [obBlock, if_neg hw, if_neg hd] at hx; rw [pbBlock, if_neg hw]; exact hx

theorem flatMap_ob_subset_pb (fs : FieldsSetting) (n : Nat) (l : List String) :
    ∀ x ∈ l.flatMap (obBlock fs n), x ∈ l.flatMap (pbBlock fs n) := by
  intro x hx
  rw [List.mem_flatMap] at hx ⊢
  obtain ⟨g, hg, hxg⟩ := hx
  exact ⟨g, hg, obBlock_subset_pbBlock fs n g x hxg⟩

theorem outputNames_sublist_plannedNames (fs : FieldsSetting) (n : Nat) :
    (outputNames fs n).Sublist (plannedNames fs n) := by
  rw [outputNames, plannedNames]
  induction fs.all_fields with
  | nil => simp
  | cons g l ih =>
    rw [List.flatMap_cons, List.flatMap_cons]
    refine List.Sublist.append ?_ ih
    by_cases hw : g ∈ fs.fields_to_window
    · rw [obBlock, if_pos hw, pbBlock, if_pos hw]
    · by_cases hd : g ∈ fs.fields_to_drop
      · rw [obBlock, if_neg hw, if_pos hd]; exact List.nil_sublist _
      · rw [obBlock, if_neg hw, if_neg hd, pbBlock, if_neg hw]

theorem mem_fst_fieldColumns {tbl : Table} {fs : FieldsSetting} {n : Nat} {g : String}
    {a : String × List Cell} (ha : a ∈ fieldColumns tbl fs n g) :
    a.1 ∈ pbBlock fs n g := by
  have h : a.1 ∈ (fieldColumns tbl fs n g).map Prod.fst := List.mem_map_of_mem Prod.fst ha
  rw [map_fst_fieldColumns] at h
  exact obBlock_subset_pbBlock fs n g a.1 h

theorem lagNames_subset_flatMap_pb {fs : FieldsSetting} {n : Nat} {f : String}
    {l : List String} (hf : f ∈ l) (hw : f ∈ fs.fields_to_window) :
    ∀ x ∈ lagNames f n, x ∈ l.flatMap (pbBlock fs n) := by
  intro x hx
  rw [List.mem_flatMap]
  exact ⟨f, hf, by rw [pbBlock, if_pos hw]; exact hx⟩

/-- Filtering all assignments down to the lag names of a windowed field
`f` recovers exactly `f`'s own assignments (no other field, nor a second
occurrence of `f`, contributes one of those names while `plannedNames` is
duplicate-free). -/
theorem filter_flatMap_lag (tbl : Table) (fs : FieldsSetting) (n : Nat) (f : String)
    (hw : f ∈ fs.fields_to_window) :
    ∀ l : List String, (l.flatMap (pbBlock fs n)).Nodup → f ∈ l →
    (l.flatMap (fieldColumns tbl fs n)).filter (fun a => decide (a.1 ∈ lagNames f n)) =
      fieldColumns tbl fs n f := by
  intro l
  induction l with
  | nil => intro _ hf; simp at hf
  | cons g l ih =>
    intro hnd hf
    rw [List.flatMap_cons] at hnd ⊢
    rw [List.nodup_append] at hnd
    obtain ⟨hnd1, hnd2, hdisj⟩ := hnd
    rw [List.filter_append]
    by_cases hg : g = f
    · subst hg
      have hblock : (fieldColumns tbl fs n g).filter
          (fun a => decide (a.1 ∈ lagNames g n)) = fieldColumns tbl fs n g := by
        rw [List.filter_eq_self]
        intro a ha
        have h1 : a.1 ∈ pbBlock fs n g := mem_fst_fieldColumns ha
        rw [pbBlock, if_pos hw] at h1
        simpa using h1
      have hrest : (l.flatMap (fieldColumns tbl fs n)).filter
          (fun a => decide (a.1 ∈ lagNames g n)) = [] := by
        rw [List.filter_eq_nil_iff]
        intro a ha hmem
        simp only [decide_eq_true_eq] at hmem
        obtain ⟨x, hx, hax⟩ := List.mem_flatMap.mp ha
        have h1 : a.1 ∈ l.flatMap (pbBlock fs n) :=
          List.mem_flatMap.mpr ⟨x, hx, mem_fst_fieldColumns hax⟩
        have h2 : a.1 ∈ pbBlock fs n g := by rw [pbBlock, if_pos hw]; exact hmem
        exact hdisj h2 h1
      rw [hblock, hrest, List.append_nil]
    · have hf' : f ∈ l := by
        rcases List.mem_cons.mp hf with h | h
        · exact absurd h.symm hg
        · exact h
      have hblock : (fieldColumns tbl fs n g).filter
          (fun a => decide (a.1 ∈ lagNames f n)) = [] := by
        rw [List.filter_eq_nil_iff]
        intro a ha hmem
        simp only [decide_eq_true_eq] at hmem
        have h1 : a.1 ∈ pbBlock fs n g := mem_fst_fieldColumns ha
        have h2 : a.1 ∈ l.flatMap (pbBlock fs n) :=
          lagNames_subset_flatMap_pb hf' hw a.1 hmem
        exact hdisj h1 h2
      rw [hblock, List.nil_append]
      exact ih hnd2 hf'

/-! ### The shape of one aligned lag column -/

theorem lagCol_eq_of_le {src : List Cell} {N : Nat} (hsrc : src.length = N)
    {i : Nat} (hi : i ≤ N) :
    reindexTo N (lagSeries src N i) =
      List.replicate i none ++ src.take (N - i) := by
  have h0 : (0 : Int) ≤ (N : Int) - (i : Int) := by omega
  have ht : ((N : Int) - (i : Int)).toNat = N - i := by omega
  have hs : lagSeries src N i = List.replicate i none ++ src.take (N - i) := by
    rw [lagSeries, pySliceTo, if_pos h0, ht]
  have hl : (lagSeries src N i).length = N := by
    rw [lagSeries_length hsrc i, if_pos hi]
  rw [reindexTo_eq_self hl, hs]

theorem lagCol_eq_of_gt {src : List Cell} {N : Nat} (hsrc : src.length = N)
    {i : Nat} (hi : N < i) :
    reindexTo N (lagSeries src N i) = List.replicate N none := by
  have hlen : (lagSeries src N i).length = i + (N - (i - N)) := by
    rw [lagSeries_length hsrc i, if_neg (by omega)]
  have hge : N ≤ (lagSeries src N i).length := by omega
  have htake : (lagSeries src N i).take N = List.replicate N none := by
    rw [lagSeries, List.take_append_eq_append_take, List.length_replicate,
      List.take_replicate, Nat.sub_eq_zero_of_le (le_of_lt hi), List.take_zero,
      List.append_nil, min_eq_left (le_of_lt hi)]
  rw [reindexTo, htake, Nat.sub_eq_zero_of_le hge, List.replicate_zero,
    List.append_nil]

theorem lagCol_get_lt {src : List Cell} {N : Nat} (hsrc : src.length = N)
    {i r : Nat} (hri : r < i) (hr : r < N) :
    (reindexTo N (lagSeries src N i)).get? r = some none := by
  by_cases hi : i ≤ N
  · rw [lagCol_eq_of_le hsrc hi, List.get?_eq_getElem?, List.getElem?_append,
      List.length_replicate, if_pos hri, List.getElem?_replicate, if_pos hri]
  · rw [lagCol_eq_of_gt hsrc (by omega), List.get?_eq_getElem?,
      List.getElem?_replicate, if_pos hr]

theorem lagCol_get_ge {src : List Cell} {N : Nat} (hsrc : src.length = N)
    {i r : Nat} (hir : i ≤ r) (hr : r < N) :
    (reindexTo N (lagSeries src N i)).get? r = src.get? (r - i) := by
  have hi : i ≤ N := le_trans hir (le_of_lt hr)
  rw [lagCol_eq_of_le hsrc hi, List.get?_eq_getElem?, List.getElem?_append,
    List.length_replicate, if_neg (by omega), List.getElem?_take,
    if_pos (by omega), List.get?_eq_getElem?]

theorem lagCol_zero {src : List Cell} {N : Nat} (hsrc : src.length = N) :
    reindexTo N (lagSeries src N 0) = src := by
  rw [lagCol_eq_of_le hsrc (Nat.zero_le N), Nat.sub_zero, List.replicate_zero,
    List.nil_append, ← hsrc, List.take_length]

/-- The filtered view of the whole transform output at a windowed field's
lag names: exactly that field's `n` aligned lag columns, in lag order. -/
theorem transform_filter_lag (tbl : Table) (fs : FieldsSetting) (n : Nat) (f : String)
    (hw : f ∈ fs.fields_to_window) (hfall : f ∈ fs.all_fields)
    (hlen : ∀ g ∈ fs.all_fields, (tbl.col g).length = tbl.nrows)
    (hnd : (plannedNames fs n).Nodup) :
    (transform tbl fs n).filter (fun c => decide (c.1 ∈ lagNames f n)) =
      (List.range n).map
        (fun i => (lagName f i, reindexTo tbl.nrows (lagSeries (tbl.col f) tbl.nrows i))) := by
  have hnout : (outputNames fs n).Nodup :=
    (outputNames_sublist_plannedNames fs n).nodup hnd
  rw [transform_eq_map tbl fs n hlen hnout, List.filter_map]
  have hcomp : ((fun c : String × List Cell => decide (c.1 ∈ lagNames f n)) ∘
      (fun a : String × List Cell => (a.1, reindexTo tbl.nrows a.2))) =
      (fun a : String × List Cell => decide (a.1 ∈ lagNames f n)) := funext (fun a => rfl)
  rw [hcomp]
  have hfilter : (transformAssignments tbl fs n).filter
      (fun a => decide (a.1 ∈ lagNames f n)) = fieldColumns tbl fs n f :=
    filter_flatMap_lag tbl fs n f hw fs.all_fields hnd hfall
  rw [hfilter, fieldColumns, if_pos hw, List.map_map]
  rfl

/-- A dropped (and not windowed) field's name never occurs among the
assigned output names while the planned names are duplicate-free. -/
theorem drop_not_mem_flatMap_ob {fs : FieldsSetting} {n : Nat} {f : String}
    (hw : f ∉ fs.fields_to_window) (hd : f ∈ fs.fields_to_drop) :
    ∀ l : List String, (l.flatMap (pbBlock fs n)).Nodup → f ∈ l →
    f ∉ l.flatMap (obBlock fs n) := by
  intro l
  induction l with
  | nil => intro _ hf; simp at hf
  | cons g l ih =>
    intro hnd hf hmem
    rw [List.flatMap_cons, List.nodup_append] at hnd
    obtain ⟨hnd1, hnd2, hdisj⟩ := hnd
    rw [List.flatMap_cons, List.mem_append] at hmem
    by_cases hg : g = f
    · subst hg
      rcases hmem with h | h
      · rw [obBlock, if_neg hw, if_pos hd] at h
        simp at h
      · have h1 : g ∈ pbBlock fs n g := by
          rw [pbBlock, if_neg hw]; exact List.mem_singleton_self g
        exact hdisj h1 (flatMap_ob_subset_pb fs n l g h)
    · have hf' : f ∈ l := by
        rcases List.mem_cons.mp hf with h | h
        · exact absurd h.symm hg
        · exact h
      rcases hmem with h | h
      · have h1 : f ∈ pbBlock fs n g := obBlock_subset_pbBlock fs n g f h
        have h2 : f ∈ l.flatMap (pbBlock fs n) := by
          rw [List.mem_flatMap]
          exact ⟨f, hf', by rw [pbBlock, if_neg hw]; exact List.mem_singleton_self f⟩
        exact hdisj h1 h2
      · exact ih hnd2 hf' h

/-- The kept fields' verbatim assignments form a sublist of all
assignments, in their original relative order. -/
theorem kept_sublist_assignments (tbl : Table) (fs : FieldsSetting) (n : Nat) :
    ∀ l : List String,
    ((l.filter (fun f => decide (f ∉ fs.fields_to_window ∧ f ∉ fs.fields_to_drop))).map
        (fun f => (f, tbl.col f))).Sublist (l.flatMap (fieldColumns tbl fs n)) := by
  intro l
  induction l with
  | nil => simp
  | cons g l ih =>
    rw [List.flatMap_cons]
    by_cases hk : g ∉ fs.fields_to_window ∧ g ∉ fs.fields_to_drop
    · rw [List.filter_cons_of_pos (by simpa using hk), List.map_cons]
      have hblock : fieldColumns tbl fs n g = [(g, tbl.col g)] := by
        rw [fieldColumns, if_neg hk.1, if_neg hk.2]
      rw [hblock, List.singleton_append]
      exact List.Sublist.cons₂ (g, tbl.col g) ih
    · rw [List.filter_cons_of_neg (by simpa using hk)]
      exact ih.trans (List.sublist_append_right _ _)

/-- C1: for every source table, classification and `nLags ≥ 1`, a
windowed field `f` produces exactly the `nLags` columns `f_T-0 …
f_T-(nLags-1)` (in increasing lag order); each lag-`i` column has the
source table's length, holds the null marker in its first `i` rows, and
at every row `r ≥ i` holds the source column's row `r - i`; the lag-`0`
column is the source column itself. -/
theorem C1_lag_correctness (tbl : Table) (fs : FieldsSetting) (n : Nat) (f : String)
    (hn : 1 ≤ n) (hw : f ∈ fs.fields_to_window) (hfall : f ∈ fs.all_fields)
    (hlen : ∀ g ∈ fs.all_fields, (tbl.col g).length = tbl.nrows)
    (hnd : (plannedNames fs n).Nodup) :
    (((transform tbl fs n).filter (fun c => decide (c.1 ∈ lagNames f n))).map Prod.fst
        = lagNames f n) ∧
    (∀ i, i < n → ∃ c, (lagName f i, c) ∈ transform tbl fs n ∧
      c.length = tbl.nrows ∧
      (∀ r, r < i → r < tbl.nrows → c.get? r = some none) ∧
      (∀ r, i ≤ r → r < tbl.nrows → c.get? r = (tbl.col f).get? (r - i))) ∧
    (lagName f 0, tbl.col f) ∈ transform tbl fs n := by
  have hcol : (tbl.col f).length = tbl.nrows := hlen f hfall
  have hmem : ∀ i, i < n →
      (lagName f i, reindexTo tbl.nrows (lagSeries (tbl.col f) tbl.nrows i)) ∈
        transform tbl fs n := by
    intro i hi
    have hnout : (outputNames fs n).Nodup :=
      (outputNames_sublist_plannedNames fs n).nodup hnd
    rw [transform_eq_map tbl fs n hlen hnout]
    have ha : (lagName f i, lagSeries (tbl.col f) tbl.nrows i) ∈
        transformAssignments tbl fs n := by
      rw [transformAssignments, List.mem_flatMap]
      refine ⟨f, hfall, ?_⟩
      rw [fieldColumns, if_pos hw]
      exact List.mem_map.mpr ⟨i, List.mem_range.mpr hi, rfl⟩
    exact List.mem_map.mpr ⟨(lagName f i, lagSeries (tbl.col f) tbl.nrows i), ha, rfl⟩
  refine ⟨?_, ?_, ?_⟩
  · rw [transform_filter_lag tbl fs n f hw hfall hlen hnd, List.map_map]
    rfl
  · intro i hi
    exact ⟨reindexTo tbl.nrows (lagSeries (tbl.col f) tbl.nrows i), hmem i hi,
      reindexTo_length tbl.nrows _,
      fun r hri hr => lagCol_get_lt hcol hri hr,
      fun r hir hr => lagCol_get_ge hcol hir hr⟩
  · have h0 := hmem 0 hn
    rw [lagCol_zero hcol] at h0
    exact h0

/-- C2: the output column list is the original field order with each kept
field contributing its own single column, each dropped field contributing
no column (and, absent name collisions, its name absent from the output),
and each windowed field replaced in place by its `nLags` lag columns in
increasing lag order. -/
theorem C2_column_order (tbl : Table) (fs : FieldsSetting) (n : Nat)
    (hlen : ∀ g ∈ fs.all_fields, (tbl.col g).length = tbl.nrows)
    (hnd : (plannedNames fs n).Nodup) :
    ((transform tbl fs n).map Prod.fst = outputNames fs n) ∧
    (∀ f ∈ fs.all_fields, f ∈ fs.fields_to_drop → f ∉ fs.fields_to_window →
      f ∉ (transform tbl fs n).map Prod.fst) := by
  have hnout : (outputNames fs n).Nodup :=
    (outputNames_sublist_plannedNames fs n).nodup hnd
  have hnames : (transform tbl fs n).map Prod.fst = outputNames fs n := by
    rw [transform_eq_map tbl fs n hlen hnout, List.map_map]
    have hcomp : (Prod.fst ∘ fun a : String × List Cell =>
        (a.1, reindexTo tbl.nrows a.2)) = Prod.fst := funext (fun a => rfl)
    rw [hcomp, map_fst_transformAssignments]
  refine ⟨hnames, ?_⟩
  intro f hfall hd hw
  rw [hnames]
  exact drop_not_mem_flatMap_ob hw hd fs.all_fields hnd hfall

/-- C3: every kept field (in `all_fields`, in neither `fields_to_window`
nor `fields_to_drop`) appears in the derived table with its own name, in
its original relative position among the kept fields, with the source
column's values verbatim. -/
theorem C3_kept_verbatim (tbl : Table) (fs : FieldsSetting) (n : Nat)
    (hlen : ∀ g ∈ fs.all_fields, (tbl.col g).length = tbl.nrows)
    (hnd : (plannedNames fs n).Nodup) :
    ((fs.all_fields.filter
        (fun f => decide (f ∉ fs.fields_to_window ∧ f ∉ fs.fields_to_drop))).map
      (fun f => (f, tbl.col f))).Sublist (transform tbl fs n) := by
  have hnout : (outputNames fs n).Nodup :=
    (outputNames_sublist_plannedNames fs n).nodup hnd
  rw [transform_eq_map tbl fs n hlen hnout]
  have hsub := (kept_sublist_assignments tbl fs n fs.all_fields).map
    (fun a : String × List Cell => (a.1, reindexTo tbl.nrows a.2))
  rw [List.map_map] at hsub
  have hcongr : (fs.all_fields.filter
      (fun f => decide (f ∉ fs.fields_to_window ∧ f ∉ fs.fields_to_drop))).map
        ((fun a : String × List Cell => (a.1, reindexTo tbl.nrows a.2)) ∘
          (fun f => (f, tbl.col f))) =
      (fs.all_fields.filter
        (fun f => decide (f ∉ fs.fields_to_window ∧ f ∉ fs.fields_to_drop))).map
        (fun f => (f, tbl.col f)) := by
    refine List.map_congr_left ?_
    intro f hf
    have hfl : f ∈ fs.all_fields := (List.mem_filter.mp hf).1
    simp only [Function.comp]
    rw [reindexTo_eq_self (hlen f hfl)]
  rw [hcongr] at hsub
  exact hsub

/-- C10: a field listed in both `fields_to_window` and `fields_to_drop`
is treated as windowed — the membership test against the windowed set
precedes the dropped test, so its `nLags` lag columns are all emitted and
the field is not dropped. -/
theorem C10_window_test_precedes_drop (tbl : Table) (fs : FieldsSetting) (n : Nat)
    (f : String) (hn : 1 ≤ n) (hw : f ∈ fs.fields_to_window)
    (hd : f ∈ fs.fields_to_drop) (hfall : f ∈ fs.all_fields)
    (hlen : ∀ g ∈ fs.all_fields, (tbl.col g).length = tbl.nrows)
    (hnd : (plannedNames fs n).Nodup) :
    (((transform tbl fs n).filter (fun c => decide (c.1 ∈ lagNames f n))).map Prod.fst
        = lagNames f n) ∧
    (∀ i, i < n → lagName f i ∈ (transform tbl fs n).map Prod.fst) := by
  refine ⟨?_, ?_⟩
  · rw [transform_filter_lag tbl fs n f hw hfall hlen hnd, List.map_map]
    rfl
  · intro i hi
    have hnout : (outputNames fs n).Nodup :=
      (outputNames_sublist_plannedNames fs n).nodup hnd
    rw [transform_eq_map tbl fs n hlen hnout]
    have ha : (lagName f i, lagSeries (tbl.col f) tbl.nrows i) ∈
        transformAssignments tbl fs n := by
      rw [transformAssignments, List.mem_flatMap]
      refine ⟨f, hfall, ?_⟩
      rw [fieldColumns, if_pos hw]
      exact List.mem_map.mpr ⟨i, List.mem_range.mpr hi, rfl⟩
    rw [List.map_map]
    exact List.mem_map.mpr ⟨(lagName f i, lagSeries (tbl.col f) tbl.nrows i), ha, rfl⟩

/-! ### Session lemmas -/

theorem getD_mem_of_lt {l : List String} {c : Nat} (h : c < l.length) :
    l.getD c "" ∈ l := by
  rw [List.getD_eq_getElem?_getD, List.getElem?_eq_getElem h]
  exact List.getElem_mem h

theorem goDown_lt {len c : Nat} (h : c < len) : goDown len c < len := by
  rw [goDown]; split <;> omega

theorem goUp_lt {len c : Nat} (h : c < len) : goUp c < len := by
  rw [goUp]; split <;> omega

theorem sessionStep_cursor_lt (af : List String) (s : SessionState) (e : SEvent)
    (h : s.cursor < af.length) : (sessionStep af s e).cursor < af.length := by
  cases e
  · exact goUp_lt h
  · exact goDown_lt h
  · exact goDown_lt h
  · exact goDown_lt h
  · exact goDown_lt h

theorem runSession_cursor_lt (af : List String) (es : List SEvent) :
    ∀ s : SessionState, s.cursor < af.length →
    (runSession af s es).cursor < af.length := by
  induction es with
  | nil => intro s h; exact h
  | cons e es ih => intro s h; exact ih _ (sessionStep_cursor_lt af s e h)

/-- One key transition preserves the classification invariant (the marked
field is a genuine member of `all_fields` because the cursor is in
range). -/
theorem sessionStep_inv (af : List String) (s : SessionState) (e : SEvent)
    (hc : s.cursor < af.length) (h : SessionInv af s) :
    SessionInv af (sessionStep af s e) := by
  obtain ⟨h1, h2, h3, h4, h5, h6⟩ := h
  have h1' : ∀ x, x ∈ s.toWindow → x ∈ s.toDrop → False := fun x ha hb => by
    have hx : x ∈ s.toWindow ∩ s.toDrop := Finset.mem_inter.mpr ⟨ha, hb⟩
    rw [h1] at hx
    exact absurd hx (Finset.not_mem_empty x)
  have h5' : ∀ x, x ∈ s.toWindow → x ∈ s.toKeep → False := fun x ha hb => by
    have hx : x ∈ s.toWindow ∩ s.toKeep := Finset.mem_inter.mpr ⟨ha, hb⟩
    rw [h5] at hx
    exact absurd hx (Finset.not_mem_empty x)
  have h6' : ∀ x, x ∈ s.toDrop → x ∈ s.toKeep → False := fun x ha hb => by
    have hx : x ∈ s.toDrop ∩ s.toKeep := Finset.mem_inter.mpr ⟨ha, hb⟩
    rw [h6] at hx
    exact absurd hx (Finset.not_mem_empty x)
  have h4' : ∀ x, x ∈ s.toWindow ∨ x ∈ s.toDrop ∨ x ∈ s.toKeep ↔ x ∈ af.toFinset :=
    fun x => by rw [← h4]; simp only [Finset.mem_union]; tauto
  have hf : af.getD s.cursor "" ∈ af.toFinset :=
    List.mem_toFinset.mpr (getD_mem_of_lt hc)
  cases e with
  | up => exact ⟨h1, h2, h3, h4, h5, h6⟩
  | down => exact ⟨h1, h2, h3, h4, h5, h6⟩
  | markKeep =>
    simp only [sessionStep]
    refine ⟨?_, ?_, ?_, ?_, ?_, ?_⟩
    · apply Finset.eq_empty_iff_forall_not_mem.mpr
      intro x hx
      simp only [Finset.mem_inter, Finset.mem_erase] at hx
      exact h1' x hx.1.2 hx.2.2
    · exact (Finset.erase_subset _ _).trans h2
    · exact (Finset.erase_subset _ _).trans h3
    · ext x
      have hU := h4' x
      simp only [Finset.mem_union, Finset.mem_erase, Finset.mem_insert]
      by_cases hxf : x = af.getD s.cursor ""
      · subst hxf; tauto
      · tauto
    · apply Finset.eq_empty_iff_forall_not_mem.mpr
      intro x hx
      simp only [Finset.mem_inter, Finset.mem_erase, Finset.mem_insert] at hx
      rcases hx.2 with hxf | hxK
      · exact hx.1.1 hxf
      · exact h5' x hx.1.2 hxK
    · apply Finset.eq_empty_iff_forall_not_mem.mpr
      intro x hx
      simp only [Finset.mem_inter, Finset.mem_erase, Finset.mem_insert] at hx
      rcases hx.2 with hxf | hxK
      · exact hx.1.1 hxf
      · exact h6' x hx.1.2 hxK
  | markDrop =>
    simp only [sessionStep]
    refine ⟨?_, ?_, ?_, ?_, ?_, ?_⟩
    · apply Finset.eq_empty_iff_forall_not_mem.mpr
      intro x hx
      simp only [Finset.mem_inter, Finset.mem_erase, Finset.mem_insert] at hx
      rcases hx.2 with hxf | hxD
      · exact hx.1.1 hxf
      · exact h1' x hx.1.2 hxD
    · exact (Finset.erase_subset _ _).trans h2
    · exact Finset.insert_subset_iff.mpr ⟨hf, h3⟩
    · ext x
      have hU := h4' x
      simp only [Finset.mem_union, Finset.mem_erase, Finset.mem_insert]
      by_cases hxf : x = af.getD s.cursor ""
      · subst hxf; tauto
      · tauto
    · apply Finset.eq_empty_iff_forall_not_mem.mpr
      intro x hx
      simp only [Finset.mem_inter, Finset.mem_erase] at hx
      exact h5' x hx.1.2 hx.2.2
    · apply Finset.eq_empty_iff_forall_not_mem.mpr
      intro x hx
      simp only [Finset.mem_inter, Finset.mem_erase, Finset.mem_insert] at hx
      rcases hx.1 with hxf | hxD
      · exact hx.2.1 hxf
      · exact h6' x hxD hx.2.2
  | markWindow =>
    simp only [sessionStep]
    refine ⟨?_, ?_, ?_, ?_, ?_, ?_⟩
    · apply Finset.eq_empty_iff_forall_not_mem.mpr
      intro x hx
      simp only [Finset.mem_inter, Finset.mem_erase, Finset.mem_insert] at hx
      rcases hx.1 with hxf | hxW
      · exact hx.2.1 hxf
      · exact h1' x hxW hx.2.2
    · exact Finset.insert_subset_iff.mpr ⟨hf, h2⟩
    · exact (Finset.erase_subset _ _).trans h3
    · ext x
      have hU := h4' x
      simp only [Finset.mem_union, Finset.mem_erase, Finset.mem_insert]
      by_cases hxf : x = af.getD s.cursor ""
      · subst hxf; tauto
      · tauto
    · apply Finset.eq_empty_iff_forall_not_mem.mpr
      intro x hx
      simp only [Finset.mem_inter, Finset.mem_erase, Finset.mem_insert] at hx
      rcases hx.1 with hxf | hxW
      · exact hx.2.1 hxf
      · exact h5' x hxW hx.2.2
    · apply Finset.eq_empty_iff_forall_not_mem.mpr
      intro x hx
      simp only [Finset.mem_inter, Finset.mem_erase] at hx
      exact h6' x hx.1.2 hx.2.2

theorem runSession_inv (af : List String) (es : List SEvent) :
    ∀ s : SessionState, s.cursor < af.length → SessionInv af s →
    SessionInv af (runSession af s es) := by
  induction es with
  | nil => intro s _ h; exact h
  | cons e es ih =>
    intro s hc h
    exact ih _ (sessionStep_cursor_lt af s e hc) (sessionStep_inv af s e hc h)

/-- The initial session state satisfies the classification invariant when
the loaded classification does. -/
theorem initSession_inv (fs : FieldsSetting)
    (hw : ∀ x ∈ fs.fields_to_window, x ∈ fs.all_fields)
    (hd : ∀ x ∈ fs.fields_to_drop, x ∈ fs.all_fields)
    (hdisj : ∀ x ∈ fs.fields_to_window, x ∉ fs.fields_to_drop) :
    SessionInv fs.all_fields (initSession fs) := by
  refine ⟨?_, ?_, ?_, ?_, ?_, ?_⟩
  · apply Finset.eq_empty_iff_forall_not_mem.mpr
    intro x hx
    simp only [initSession, Finset.mem_inter, List.mem_toFinset] at hx
    exact hdisj x hx.1 hx.2
  · intro x hx
    simp only [initSession, List.mem_toFinset] at hx ⊢
    exact hw x hx
  · intro x hx
    simp only [initSession, List.mem_toFinset] at hx ⊢
    exact hd x hx
  · ext x
    simp only [initSession, Finset.mem_union, Finset.mem_sdiff, List.mem_toFinset]
    constructor
    · rintro ((hx | hx) | hx)
      · exact hw x hx
      · exact hd x hx
      · exact hx.1.1
    · intro hx
      by_cases hxw : x ∈ fs.fields_to_window
      · tauto
      · by_cases hxd : x ∈ fs.fields_to_drop <;> tauto
  · apply Finset.eq_empty_iff_forall_not_mem.mpr
    intro x hx
    simp only [initSession, Finset.mem_inter, Finset.mem_sdiff, List.mem_toFinset] at hx
    exact hx.2.1.2 hx.1
  · apply Finset.eq_empty_iff_forall_not_mem.mpr
    intro x hx
    simp only [initSession, Finset.mem_inter, Finset.mem_sdiff, List.mem_toFinset] at hx
    exact hx.2.2 hx.1

/-- C4: starting a session from a classification satisfying the data
model's invariant, after every sequence of key transitions the windowed
and dropped sets are disjoint subsets of `all_fields`, and together with
the kept set they cover `all_fields` with every field in exactly one of
the three states. -/
theorem C4_session_invariant (fs : FieldsSetting) (es : List SEvent)
    (hne : fs.all_fields ≠ [])
    (hw : ∀ x ∈ fs.fields_to_window, x ∈ fs.all_fields)
    (hd : ∀ x ∈ fs.fields_to_drop, x ∈ fs.all_fields)
    (hdisj : ∀ x ∈ fs.fields_to_window, x ∉ fs.fields_to_drop) :
    SessionInv fs.all_fields (runSession fs.all_fields (initSession fs) es) := by
  have hc : (initSession fs).cursor < fs.all_fields.length := by
    have : 0 < fs.all_fields.length := List.length_pos.mpr hne
    simpa [initSession] using this
  exact runSession_inv fs.all_fields es (initSession fs) hc
    (initSession_inv fs hw hd hdisj)

/-- C8: moving up at index `0` leaves the cursor at `0`, moving down at
the last index leaves it at the last index, and from the start of a
session the cursor stays within `[0, len(all_fields) - 1]` after every
sequence of transitions. -/
theorem C8_cursor_clamp :
    (∀ (af : List String) (s : SessionState), s.cursor = 0 →
      (sessionStep af s .up).cursor = 0) ∧
    (∀ (af : List String) (s : SessionState), s.cursor = af.length - 1 →
      (sessionStep af s .down).cursor = af.length - 1) ∧
    (∀ (fs : FieldsSetting) (es : List SEvent), fs.all_fields ≠ [] →
      (runSession fs.all_fields (initSession fs) es).cursor ≤
        fs.all_fields.length - 1) := by
  refine ⟨?_, ?_, ?_⟩
  · intro af s h
    simp [sessionStep, goUp, h]
  · intro af s h
    simp [sessionStep, goDown, h]
  · intro fs es hne
    have hc : (initSession fs).cursor < fs.all_fields.length := by
      have : 0 < fs.all_fields.length := List.length_pos.mpr hne
      simpa [initSession] using this
    have := runSession_cursor_lt fs.all_fields es (initSession fs) hc
    omega

/-! ### Cache lemmas -/

theorem mem_dictInsert_self {α : Type} (m : List (String × α)) (k : String) (v : α) :
    (k, v) ∈ dictInsert m k v := by
  rw [dictInsert]
  by_cases hany : m.any (fun kv => kv.1 == k) = true
  · rw [if_pos hany]
    obtain ⟨kv, hkv, hbeq⟩ := List.any_eq_true.mp hany
    refine List.mem_map.mpr ⟨kv, hkv, ?_⟩
    rw [if_pos hbeq]
  · rw [if_neg hany]
    exact List.mem_append_right m (List.mem_singleton_self (k, v))

theorem dictInsert_vals {α : Type} {m : List (String × α)} {k : String} {v : α} :
    ∀ kv ∈ dictInsert m k v, kv.1 = k → kv.2 = v := by
  intro kv hkv hk
  rw [dictInsert] at hkv
  by_cases hany : m.any (fun x => x.1 == k) = true
  · rw [if_pos hany] at hkv
    obtain ⟨kv0, hkv0, himg⟩ := List.mem_map.mp hkv
    by_cases h0 : kv0.1 == k
    · rw [if_pos h0] at himg
      rw [← himg]
    · rw [if_neg h0] at himg
      rw [← himg] at hk
      exact absurd (by simp [hk]) h0
  · rw [if_neg hany] at hkv
    rcases List.mem_append.mp hkv with h | h
    · have := List.any_eq_false.mp (Bool.eq_false_iff.mpr hany) kv h
      exact absurd (by simp [hk]) this
    · rw [List.mem_singleton] at h
      rw [h]

theorem sortCache_perm (m : CacheMap) : (sortCache m).Perm m :=
  List.perm_insertionSort _ m

theorem dictGet?_eq_some {α : Type} {m : List (String × α)} {k : String} {v : α}
    (hex : ∃ kv ∈ m, kv.1 = k) (hall : ∀ kv ∈ m, kv.1 = k → kv.2 = v) :
    dictGet? m k = some v := by
  rw [dictGet?]
  rcases hfind : m.find? (fun kv => kv.1 == k) with _ | b
  · obtain ⟨kv, hkv, hk⟩ := hex
    have := List.find?_eq_none.mp hfind kv hkv
    exact absurd (by simp [hk]) this
  · have hb1 : b.1 = k := by
      have := List.find?_some hfind
      simpa using this
    have hbm : b ∈ m := List.mem_of_find?_eq_some hfind
    rw [hfind]
    show some b.2 = some v
    rw [hall b hbm hb1]

/-- C5 (amended): a missing cache file is treated as an empty cache with
no error, and a well-formed cache file loads as its contents; but a
present file that does not parse raises a `JSONDecodeError` (the load is
fatal there — the source only guards `CACHE_PATH.exists()` and calls
`json.loads` unprotected). -/
theorem C5_cache_read :
    load_all_cache none = .ok [] ∧
    (∀ m : CacheMap, load_all_cache (some (some m)) = .ok m) ∧
    load_all_cache (some none) = .error "json.decoder.JSONDecodeError" :=
  ⟨rfl, fun _ => rfl, rfl⟩

/-- C5 counterexample: a present-but-corrupt cache file does not behave as
an empty cache — `load_all_cache` propagates the parse error instead of
returning any cache at all. -/
theorem C5_counterexample :
    load_all_cache (some none) = .error "json.decoder.JSONDecodeError" ∧
    ∀ m : CacheMap, load_all_cache (some none) ≠ .ok m :=
  ⟨rfl, fun _ h => Except.noConfusion h⟩

/-- C6: saving a classification for `/a/b/data.csv` into an absent cache
and then loading for `/x/y/data.csv` (same base name, different directory,
no exact key match) returns the saved classification through the
suffix-match fallback rather than absent. -/
theorem C6_suffix_fallback (fs : FieldsSetting) :
    (save_fields_setting none "/a/b/data.csv" fs).bind
      (fun file => load_fields_setting file "/x/y/data.csv") = .ok (some fs) := rfl

/-- C7: if loading the classification for a path yields `fs`, then saving
`fs` back under the same path and reloading that path yields `fs` again
(save followed by load at the same resolved path is the identity). -/
theorem C7_save_load_identity (m : CacheMap) (p : String) (fs : FieldsSetting)
    (h : load_fields_setting (some (some m)) p = .ok (some fs)) :
    (save_fields_setting (some (some m)) p fs).bind
      (fun file => load_fields_setting file p) = .ok (some fs) := by
  have hsave : save_fields_setting (some (some m)) p fs =
      .ok (some (some (sortCache (dictInsert m p fs)))) := rfl
  rw [hsave]
  show load_fields_setting (some (some (sortCache (dictInsert m p fs)))) p = .ok (some fs)
  have hperm := sortCache_perm (dictInsert m p fs)
  have hget : dictGet? (sortCache (dictInsert m p fs)) p = some fs := by
    refine dictGet?_eq_some ⟨(p, fs), ?_, rfl⟩ ?_
    · exact hperm.mem_iff.mpr (mem_dictInsert_self m p fs)
    · intro kv hkv hk
      exact dictInsert_vals kv (hperm.mem_iff.mp hkv) hk
  simp only [load_fields_setting, load_all_cache, Except.map, resolvePath]
  rw [hget]

/-- C7 witness. -/
theorem C7_witness :
    (load_fields_setting (some (some [("/r/data.csv", ⟨["x"], [], []⟩)])) "/r/data.csv"
      = .ok (some ⟨["x"], [], []⟩)) ∧
    ((save_fields_setting (some (some [("/r/data.csv", ⟨["x"], [], []⟩)])) "/r/data.csv"
        ⟨["x"], [], []⟩).bind
      (fun file => load_fields_setting file "/r/data.csv") = .ok (some ⟨["x"], [], []⟩)) :=
  ⟨rfl, C7_save_load_identity [("/r/data.csv", ⟨["x"], [], []⟩)] "/r/data.csv"
    ⟨["x"], [], []⟩ rfl⟩

/-- C9: the fallback compares whole cache keys with `endswith` against the
base name, not path components — the key `/a/bdata.csv`, whose final
component is `bdata.csv`, still matches a query for base name `data.csv`
and its classification is returned; and with several matching keys the
first one in the cache's iteration order wins. -/
theorem C9_endswith_fallback :
    (load_fields_setting (some (some [("/a/bdata.csv", ⟨["A"], ["A"], []⟩)])) "/x/data.csv"
      = .ok (some ⟨["A"], ["A"], []⟩)) ∧
    (load_fields_setting
        (some (some [("/a/data.csv", ⟨["A"], ["A"], []⟩), ("/b/data.csv", ⟨["B"], [], ["B"]⟩)]))
        "/q/data.csv"
      = .ok (some ⟨["A"], ["A"], []⟩)) := by
  constructor
  · rfl
  · rfl

/-! ### Witnesses -/

/-- C1 witness: the spec's own example — source column `A = [1,2,3]`,
`nLags = 2` — satisfies every hypothesis, and the lag-`0` column is the
source column. -/
theorem C1_witness :
    (1 ≤ 2) ∧ ("A" ∈ (["A"] : List String)) ∧
    ((plannedNames ⟨["A"], ["A"], []⟩ 2).Nodup) ∧
    (lagName "A" 0, [some "1", some "2", some "3"]) ∈
      transform ⟨3, fun g => if g = "A" then [some "1", some "2", some "3"] else []⟩
        ⟨["A"], ["A"], []⟩ 2 :=
  ⟨by decide, by decide, by decide,
    (C1_lag_correctness
      ⟨3, fun g => if g = "A" then [some "1", some "2", some "3"] else []⟩
      ⟨["A"], ["A"], []⟩ 2 "A" (by decide) (by decide) (by decide) (by decide)
      (by decide)).2.2⟩

/-- C2 witness: a three-field classification (one windowed, one dropped,
one kept) satisfies the hypotheses, and the output names follow the plan. -/
theorem C2_witness :
    ((plannedNames ⟨["A", "B", "C"], ["A"], ["B"]⟩ 2).Nodup) ∧
    (transform ⟨2, fun g => if g = "A" then [some "1", some "2"] else [some "x", some "y"]⟩
        ⟨["A", "B", "C"], ["A"], ["B"]⟩ 2).map Prod.fst =
      outputNames ⟨["A", "B", "C"], ["A"], ["B"]⟩ 2 :=
  ⟨by decide,
    (C2_column_order
      ⟨2, fun g => if g = "A" then [some "1", some "2"] else [some "x", some "y"]⟩
      ⟨["A", "B", "C"], ["A"], ["B"]⟩ 2 (by decide) (by decide)).1⟩

/-- C3 witness: the kept field `C` appears verbatim in the derived
table. -/
theorem C3_witness :
    ((plannedNames ⟨["A", "B", "C"], ["A"], ["B"]⟩ 1).Nodup) ∧
    (((⟨["A", "B", "C"], ["A"], ["B"]⟩ : FieldsSetting).all_fields.filter
        (fun f => decide (f ∉ (⟨["A", "B", "C"], ["A"], ["B"]⟩ : FieldsSetting).fields_to_window ∧
          f ∉ (⟨["A", "B", "C"], ["A"], ["B"]⟩ : FieldsSetting).fields_to_drop))).map
      (fun f => (f, (⟨2, fun g => if g = "A" then [some "1", some "2"] else [some "x", some "y"]⟩ : Table).col f))).Sublist
      (transform ⟨2, fun g => if g = "A" then [some "1", some "2"] else [some "x", some "y"]⟩
        ⟨["A", "B", "C"], ["A"], ["B"]⟩ 1) :=
  ⟨by decide,
    C3_kept_verbatim
      ⟨2, fun g => if g = "A" then [some "1", some "2"] else [some "x", some "y"]⟩
      ⟨["A", "B", "C"], ["A"], ["B"]⟩ 1 (by decide) (by decide)⟩

/-- C4 witness: a session over fields `a`, `b` (initially `a` windowed,
`b` dropped), after marking and moving, still satisfies the invariant. -/
theorem C4_witness :
    ((["a", "b"] : List String) ≠ []) ∧
    (∀ x ∈ (["a"] : List String), x ∈ (["a", "b"] : List String)) ∧
    (∀ x ∈ (["b"] : List String), x ∈ (["a", "b"] : List String)) ∧
    (∀ x ∈ (["a"] : List String), x ∉ (["b"] : List String)) ∧
    SessionInv ["a", "b"]
      (runSession ["a", "b"] (initSession ⟨["a", "b"], ["a"], ["b"]⟩)
        [.markKeep, .markWindow, .up, .markDrop, .down]) :=
  ⟨by decide, by decide, by decide, by decide,
    C4_session_invariant ⟨["a", "b"], ["a"], ["b"]⟩
      [.markKeep, .markWindow, .up, .markDrop, .down]
      (by decide) (by decide) (by decide) (by decide)⟩

/-- C8 witness: the clamps at both ends and the in-range property after a
concrete run. -/
theorem C8_witness :
    ((sessionStep ["a", "b"] ⟨0, ∅, ∅, ∅⟩ .up).cursor = 0) ∧
    ((sessionStep ["a", "b"] ⟨1, ∅, ∅, ∅⟩ .down).cursor = 1) ∧
    ((runSession (FieldsSetting.mk ["a", "b"] [] []).all_fields
        (initSession ⟨["a", "b"], [], []⟩) [.down, .down]).cursor ≤
      (FieldsSetting.mk ["a", "b"] [] []).all_fields.length - 1) :=
  ⟨C8_cursor_clamp.1 ["a", "b"] ⟨0, ∅, ∅, ∅⟩ rfl,
    C8_cursor_clamp.2.1 ["a", "b"] ⟨1, ∅, ∅, ∅⟩ (by decide),
    C8_cursor_clamp.2.2 ⟨["a", "b"], [], []⟩ [.down, .down] (by decide)⟩

/-- C10 witness: a field in both lists is windowed — its lag-`0` column
name appears in the output. -/
theorem C10_witness :
    (1 ≤ 1) ∧ ("A" ∈ (["A"] : List String)) ∧
    ((plannedNames ⟨["A"], ["A"], ["A"]⟩ 1).Nodup) ∧
    lagName "A" 0 ∈
      (transform ⟨2, fun g => if g = "A" then [some "1", some "2"] else []⟩
        ⟨["A"], ["A"], ["A"]⟩ 1).map Prod.fst :=
  ⟨by decide, by decide, by decide,
    (C10_window_test_precedes_drop
      ⟨2, fun g => if g = "A" then [some "1", some "2"] else []⟩
      ⟨["A"], ["A"], ["A"]⟩ 1 "A" (by decide) (by decide) (by decide) (by decide)
      (by decide) (by decide)).2 0 (by decide)⟩
